import Mathlib

/-!
# Verification of the ocrlocate indexing and search engine

A shallow embedding of the core of `ocrlocate` (src/db.rs, src/ocr.rs,
src/index.rs) together with proofs about its claimed behaviour.

Paths and SQL text are modelled as `List Char`; the SQLite store is
modelled as an explicit record of the `images` table and the
`images_fts` external-content shadow, with the three triggers of
`init_db` applied at every row change.  Machine integers are modelled
as `Nat`/`Int`; fallible or panicking operations return `Option`.
Character comparison in the `LIKE` model is literal equality (paths on
a case-sensitive filesystem).
-/

namespace Ocrlocate

/-! ## LIKE patterns and `path_to_like` (src/db.rs lines 250-256) -/

/-- One step of Rust's `str::replace` with a single-character pattern:
every occurrence of `c` is replaced by `rep`. -/
def replaceChar (c : Char) (rep : List Char) : List Char → List Char
  | [] => []
  | d :: s => (if d = c then rep else [d]) ++ replaceChar c rep s

/-- `path_to_like` from src/db.rs: double `#`, then escape `%` and `_`
with `#`, then append the `%` wildcard. -/
def path_to_like (s : List Char) : List Char :=
  replaceChar '_' ['#', '_'] (replaceChar '%' ['#', '%'] (replaceChar '#' ['#', '#'] s)) ++ ['%']

/-- The character-wise escape described by the spec: `#` is doubled,
`%` and `_` are prefixed with `#`. -/
def escapeChar (c : Char) : List Char :=
  if c = '#' then ['#', '#']
  else if c = '%' then ['#', '%']
  else if c = '_' then ['#', '_']
  else [c]

/-- Character-wise escaping of a whole string. -/
def escapeLike : List Char → List Char
  | [] => []
  | c :: s => escapeChar c ++ escapeLike s

/-- SQLite `LIKE` matching with `ESCAPE '#'`: `%` matches any sequence,
`_` any single character, `#` makes the following pattern character
literal.  Character comparison is equality. -/
def likeMatch : List Char → List Char → Bool
  | [], t => t.isEmpty
  | c :: ps, t =>
    if c = '%' then
      likeMatch ps t ||
        (match t with
         | [] => false
         | _ :: ts => likeMatch (c :: ps) ts)
    else if c = '_' then
      (match t with
       | [] => false
       | _ :: ts => likeMatch ps ts)
    else if c = '#' then
      (match ps with
       | [] => false
       | e :: ps' =>
         (match t with
          | [] => false
          | d :: ts => if e = d then likeMatch ps' ts else false))
    else
      (match t with
       | [] => false
       | d :: ts => if c = d then likeMatch ps ts else false)
  termination_by p t => 2 * p.length + t.length
  decreasing_by
    all_goals simp_wf
    all_goals omega

/-- Literal string prefix test. -/
def startsWith : List Char → List Char → Bool
  | [], _ => true
  | _ :: _, [] => false
  | c :: p, d :: t => if c = d then startsWith p t else false

theorem replaceChar_sngl (c : Char) (rep : List Char) (d : Char) :
    replaceChar c rep [d] = if d = c then rep else [d] := by
  simp [replaceChar]

theorem path_to_like_eq_escape (s : List Char) :
    path_to_like s = escapeLike s ++ ['%'] := by
  suffices h : ∀ u : List Char,
      replaceChar '_' ['#', '_'] (replaceChar '%' ['#', '%'] (replaceChar '#' ['#', '#'] u))
        = escapeLike u by
    simp [path_to_like, h]
  intro u
  induction u with
  | nil => simp [replaceChar, escapeLike]
  | cons c s ih =>
    by_cases h1 : c = '#'
    · subst h1
      simp [replaceChar, escapeLike, escapeChar, ih]
    · by_cases h2 : c = '%'
      · subst h2
        simp [replaceChar, escapeLike, escapeChar, ih]
      · by_cases h3 : c = '_'
        · subst h3
          simp [replaceChar, escapeLike, escapeChar, ih]
        · simp [replaceChar, escapeLike, escapeChar, h1, h2, h3, ih]

theorem likeMatch_percent_nil (t : List Char) : likeMatch ['%'] t = true := by
  induction t with
  | nil => simp [likeMatch]
  | cons d ts ih => simp [likeMatch, ih]

theorem likeMatch_escape_append (s : List Char) :
    ∀ t : List Char, likeMatch (escapeLike s ++ ['%']) t = startsWith s t := by
  induction s with
  | nil =>
    intro t
    simp [escapeLike, startsWith, likeMatch_percent_nil]
  | cons c s ih =>
    intro t
    by_cases h1 : c = '#'
    · subst h1
      cases t with
      | nil => simp [escapeLike, escapeChar, likeMatch, startsWith]
      | cons d ts => simp [escapeLike, escapeChar, likeMatch, startsWith, ih]
    · by_cases h2 : c = '%'
      · subst h2
        cases t with
        | nil => simp [escapeLike, escapeChar, likeMatch, startsWith]
        | cons d ts => simp [escapeLike, escapeChar, likeMatch, startsWith, ih]
      · by_cases h3 : c = '_'
        · subst h3
          cases t with
          | nil => simp [escapeLike, escapeChar, likeMatch, startsWith]
          | cons d ts => simp [escapeLike, escapeChar, likeMatch, startsWith, ih]
        · have hesc : escapeLike (c :: s) = c :: escapeLike s := by
            simp [escapeLike, escapeChar, h1, h2, h3]
          cases t with
          | nil =>
            rw [hesc, List.cons_append, likeMatch.eq_def]
            simp [startsWith, h1, h2, h3]
          | cons d ts =>
            rw [hesc, List.cons_append, likeMatch.eq_def]
            by_cases hcd : c = d
            · subst hcd
              simp [startsWith, h1, h2, h3, ih]
            · simp [startsWith, h1, h2, h3, hcd]

/-- The semantic content of `path_to_like`: under `LIKE`/`ESCAPE '#'`
it matches exactly the strings having the path as a literal prefix. -/
theorem likeMatch_path_to_like (p t : List Char) :
    likeMatch (path_to_like p) t = startsWith p t := by
  rw [path_to_like_eq_escape, likeMatch_escape_append]

theorem startsWith_iff (p t : List Char) :
    startsWith p t = true ↔ ∃ u, t = p ++ u := by
  induction p generalizing t with
  | nil => simp [startsWith]
  | cons c p ih =>
    cases t with
    | nil => simp [startsWith]
    | cons d ts =>
      constructor
      · intro h
        simp only [startsWith] at h
        split at h
        · obtain ⟨u, hu⟩ := (ih ts).1 h
          subst hu
          rename_i hcd
          exact ⟨u, by simp [hcd]⟩
        · exact absurd h (by simp)
      · rintro ⟨u, hu⟩
        simp only [List.cons_append, List.cons.injEq] at hu
        obtain ⟨rfl, rfl⟩ := hu
        simp only [startsWith, if_pos rfl]
        exact (ih _).2 ⟨u, rfl⟩

/-- C6 -- `path_to_like(p)` is the character-wise escape of `p`
followed by `%`, and under `LIKE` with `ESCAPE '#'` it matches a
stored path exactly when that path starts with `p` literally: `%`,
`_` and `#` in `p` never act as wildcards. -/
theorem c6_path_to_like_correct (p t : List Char) :
    path_to_like p = escapeLike p ++ ['%'] ∧
    likeMatch (path_to_like p) t = startsWith p t ∧
    (likeMatch (path_to_like p) t = true ↔ ∃ u, t = p ++ u) := by
  refine ⟨path_to_like_eq_escape p, likeMatch_path_to_like p t, ?_⟩
  rw [likeMatch_path_to_like, startsWith_iff]

/-! ## The store (src/db.rs)

`images` rows and the `images_fts` external-content shadow.  The three
triggers of `init_db` (insert → mirror, delete → tombstone,
update → tombstone + mirror) fire on every row an SQL statement
touches, so every modelled operation updates `fts` accordingly.  An
FTS tombstone for a row removes the shadow entry carrying that rowid. -/

/-- One row of the `images` table. -/
structure Row where
  id : Nat
  path : List Char
  modtime : Nat
  mark_delete : Bool
  content : String
deriving DecidableEq, Repr

/-- The persistent store: the `images` table plus the `images_fts`
shadow (rowid, content). -/
structure DBState where
  images : List Row
  fts : List (Nat × String)
deriving DecidableEq, Repr

/-- File metadata as the store sees it: `modified()` may fail
(`none`), and otherwise yields a time in nanoseconds relative to the
Unix epoch (negative = before the epoch). -/
structure Metadata where
  modifiedNanos : Option Int
deriving DecidableEq, Repr

/-- An OCR result handed to `save_results` (struct `OcrResult`). -/
structure OcrRes where
  path : List Char
  metadata : Metadata
  contents : String
deriving DecidableEq, Repr

/-- `metadata_to_seconds` from src/db.rs: `modified()` then
`duration_since(UNIX_EPOCH)` then `as_secs()`.  Both `expect`s are
modelled as `none` (panic); `as_secs` truncates to whole seconds. -/
def metadata_to_seconds (m : Metadata) : Option Nat :=
  match m.modifiedNanos with
  | none => none
  | some n => if n < 0 then none else some (n.toNat / 1000000000)

/-- `SELECT ... FROM images WHERE path = ?1` (first row, if any). -/
def findRow (rows : List Row) (p : List Char) : Option Row :=
  rows.find? (fun r => decide (r.path = p))

/-- `DB::is_indexed`: compute the metadata seconds (panics → `none`),
look the path up, return `true` iff the stored modtime matches. -/
def is_indexed (st : DBState) (p : List Char) (m : Metadata) : Option Bool :=
  match metadata_to_seconds m with
  | none => none
  | some mtime =>
    some (match findRow st.images p with
          | none => false
          | some r => decide (r.modtime = mtime))

/-- Rowid chosen by `INTEGER PRIMARY KEY ASC` for a fresh insert. -/
def freshId (rows : List Row) : Nat :=
  (rows.map Row.id).foldr max 0 + 1

/-- An FTS tombstone: drop the shadow entry for a rowid. -/
def ftsDelete (fts : List (Nat × String)) (i : Nat) : List (Nat × String) :=
  fts.filter (fun e => decide (e.1 ≠ i))

/-- Effect of the `images_update` trigger for one updated row:
tombstone for the old row, mirror of the new one. -/
def touchRow (fts : List (Nat × String)) (r : Row) : List (Nat × String) :=
  ftsDelete fts r.id ++ [(r.id, r.content)]

/-- An `UPDATE images SET ... WHERE cond` statement: rewrite every
matching row with `f`, firing the update trigger per matching row. -/
def updateWhere (st : DBState) (cond : Row → Bool) (f : Row → Row) : DBState :=
  { images := st.images.map (fun r => if cond r then f r else r),
    fts := (st.images.filter cond).foldl (fun a r => touchRow a (f r)) st.fts }

/-- One `INSERT ... ON CONFLICT(path) DO UPDATE SET modtime=..,
content=..` execution, with its triggers. -/
def upsertRow (st : DBState) (p : List Char) (mt : Nat) (c : String) : DBState :=
  match findRow st.images p with
  | some old =>
    { images := st.images.map
        (fun r => if decide (r.path = p) then { r with modtime := mt, content := c } else r),
      fts := ftsDelete st.fts old.id ++ [(old.id, c)] }
  | none =>
    let i := freshId st.images
    { images := st.images ++ [{ id := i, path := p, modtime := mt, mark_delete := false, content := c }],
      fts := st.fts ++ [(i, c)] }

/-- One iteration of the `save_results` loop body: convert the
metadata (panic aborts everything) and execute the upsert, adding its
row-change count (one per execute) to the sum. -/
def saveStep (acc : Option (DBState × Nat)) (res : OcrRes) : Option (DBState × Nat) :=
  match acc with
  | none => none
  | some (s, n) =>
    match metadata_to_seconds res.metadata with
    | none => none
    | some mt => some (upsertRow s res.path mt res.contents, n + 1)

/-- `DB::save_results`: upsert each result in one transaction and
count the row changes; a metadata panic aborts (no state returned). -/
def save_results (st : DBState) (results : List OcrRes) : Option (DBState × Nat) :=
  results.foldl saveStep (some (st, 0))

/-- `DB::mark_for_deletion`: panic unless the argument is a directory
(`isDir` reports the filesystem check), clear every existing mark,
then mark every row whose path `LIKE path_to_like dir ESCAPE '#'`. -/
def mark_for_deletion (isDir : Bool) (st : DBState) (dir : List Char) : Option DBState :=
  if isDir then
    some (updateWhere
            (updateWhere st (fun r => r.mark_delete) (fun r => { r with mark_delete := false }))
            (fun r => likeMatch (path_to_like dir) r.path)
            (fun r => { r with mark_delete := true }))
  else
    none

/-- `DB::unmark_file`: clear the mark of the rows with that exact path. -/
def unmark_file (st : DBState) (p : List Char) : DBState :=
  updateWhere st (fun r => decide (r.path = p)) (fun r => { r with mark_delete := false })

/-- `DB::sweep_deletions`: delete every marked row (delete trigger per
row) and return the count of deleted rows. -/
def sweep_deletions (st : DBState) : DBState × Nat :=
  let del := st.images.filter (fun r => r.mark_delete)
  ({ images := st.images.filter (fun r => !r.mark_delete),
     fts := del.foldl (fun a r => ftsDelete a r.id) st.fts },
   del.length)

/-- Uniqueness constraints enforced by the schema: `path UNIQUE` and
`id INTEGER PRIMARY KEY`. -/
def WF (st : DBState) : Prop :=
  (st.images.map Row.path).Nodup ∧ (st.images.map Row.id).Nodup

/-- The shadow content the triggers maintain: one entry per row. -/
def ftsOf (rows : List Row) : List (Nat × String) :=
  rows.map (fun r => (r.id, r.content))

/-- The FTS synchronisation invariant: the shadow is, up to order,
exactly one entry per `images` row. -/
def InvFts (st : DBState) : Prop :=
  st.fts.Perm (ftsOf st.images)

instance : DecidablePred WF := fun st => by
  unfold WF
  infer_instance

instance : DecidablePred InvFts := fun st => by
  unfold InvFts
  infer_instance

/-! ## C1: `is_indexed` -/

/-- C1 -- for a readable modification time (`metadata_to_seconds`
yields `s`, the time truncated to whole seconds since the epoch),
`is_indexed` returns `true` exactly when the store holds a row with
that path whose stored modtime equals `s`, and returns `false`
whenever no row with that path exists. -/
theorem c1_is_indexed_correct (st : DBState) (p : List Char) (m : Metadata) (s : Nat)
    (hwf : WF st) (hm : metadata_to_seconds m = some s) :
    (is_indexed st p m = some true ↔ ∃ r ∈ st.images, r.path = p ∧ r.modtime = s) ∧
    ((∀ r ∈ st.images, r.path ≠ p) → is_indexed st p m = some false) := by
  constructor
  · unfold is_indexed
    rw [hm]
    constructor
    · intro h
      simp only [Option.some.injEq] at h
      rcases hfind : findRow st.images p with _ | r
      · rw [hfind] at h
        simp at h
      · rw [hfind] at h
        refine ⟨r, List.mem_of_find?_eq_some hfind, ?_, ?_⟩
        · have := List.find?_some hfind
          simpa using this
        · simpa using h
    · rintro ⟨r, hr, hrp, hrs⟩
      have hsome : (st.images.find? (fun r => decide (r.path = p))).isSome := by
        rw [List.find?_isSome]
        exact ⟨r, hr, by simpa using hrp⟩
      rcases hfind : findRow st.images p with _ | r'
      · unfold findRow at hfind
        rw [hfind] at hsome
        simp at hsome
      · have hr'mem := List.mem_of_find?_eq_some hfind
        have hr'p : r'.path = p := by simpa using List.find?_some hfind
        have : r' = r := by
          exact List.inj_on_of_nodup_map hwf.1 hr'mem hr (by rw [hr'p, hrp])
        subst this
        simp [hfind, hrs]
  · intro hnone
    unfold is_indexed
    rw [hm]
    have : findRow st.images p = none := by
      unfold findRow
      rw [List.find?_eq_none]
      intro r hr
      simpa using hnone r hr
    simp [this]

/-- A sample store used to instantiate the hypothesis-carrying
theorems on concrete data. -/
def dbEx : DBState :=
  { images := [{ id := 1, path := ['/', 'a'], modtime := 5, mark_delete := false, content := "x" },
               { id := 2, path := ['/', 'b'], modtime := 7, mark_delete := false, content := "y" }],
    fts := [(1, "x"), (2, "y")] }

theorem c1_is_indexed_correct_witness :
    is_indexed dbEx ['/', 'a'] ⟨some 5500000000⟩ = some true ∧
    is_indexed dbEx ['/', 'c'] ⟨some 5500000000⟩ = some false := by
  have h1 := c1_is_indexed_correct dbEx ['/', 'a'] ⟨some 5500000000⟩ 5 (by decide) (by decide)
  have h2 := c1_is_indexed_correct dbEx ['/', 'c'] ⟨some 5500000000⟩ 5 (by decide) (by decide)
  refine ⟨h1.1.2 ⟨⟨1, ['/', 'a'], 5, false, "x"⟩, ?_, rfl, rfl⟩, h2.2 (by decide)⟩
  simp [dbEx]

/-! ## C10: partiality of the modtime conversion -/

theorem foldl_saveStep_none (rs : List OcrRes) : rs.foldl saveStep none = none := by
  induction rs with
  | nil => rfl
  | cons a as ih => simpa [saveStep] using ih

/-- C10 -- `metadata_to_seconds` is partial: a missing or pre-epoch
modification time makes `is_indexed` and `save_results` abort
(modelled by `none`) rather than return a value, while a modification
time at or after the epoch makes the conversion total and lets both
operations complete. -/
theorem c10_modtime_conversion_aborts (m : Metadata) (st : DBState) (p : List Char)
    (res : List OcrRes) :
    ((∃ n : Int, m.modifiedNanos = some n ∧ 0 ≤ n) →
      (metadata_to_seconds m).isSome ∧ (is_indexed st p m).isSome) ∧
    ((m.modifiedNanos = none ∨ ∃ n : Int, m.modifiedNanos = some n ∧ n < 0) →
      metadata_to_seconds m = none ∧ is_indexed st p m = none) ∧
    ((save_results st res).isSome ↔
      ∀ r ∈ res, (metadata_to_seconds r.metadata).isSome) := by
  refine ⟨?_, ?_, ?_⟩
  · rintro ⟨n, hn, hpos⟩
    have hsec : metadata_to_seconds m = some (n.toNat / 1000000000) := by
      simp [metadata_to_seconds, hn, Int.not_lt.2 hpos]
    refine ⟨by simp [hsec], ?_⟩
    simp [is_indexed, hsec]
  · rintro (hn | ⟨n, hn, hneg⟩)
    · constructor
      · simp [metadata_to_seconds, hn]
      · simp [is_indexed, metadata_to_seconds, hn]
    · constructor
      · simp [metadata_to_seconds, hn, hneg]
      · simp [is_indexed, metadata_to_seconds, hn, hneg]
  · unfold save_results
    suffices h : ∀ (st0 : DBState) (n0 : Nat),
        (res.foldl saveStep (some (st0, n0))).isSome ↔
        ∀ r ∈ res, (metadata_to_seconds r.metadata).isSome from h st 0
    induction res with
    | nil => simp
    | cons r rs ih =>
      intro st0 n0
      rcases hr : metadata_to_seconds r.metadata with _ | mt
      · simp only [List.foldl_cons, saveStep, hr, foldl_saveStep_none]
        simp [hr]
      · simp only [List.foldl_cons, saveStep, hr]
        rw [ih (upsertRow st0 r.path mt r.contents) (n0 + 1)]
        simp [hr]

theorem c10_modtime_conversion_aborts_witness :
    metadata_to_seconds ⟨some 5500000000⟩ = some 5 ∧
    is_indexed dbEx ['/', 'a'] ⟨none⟩ = none ∧
    is_indexed dbEx ['/', 'a'] ⟨some (-1)⟩ = none ∧
    (save_results dbEx [⟨['/', 'a'], ⟨some (-1)⟩, "z"⟩] = none) := by
  have hbad := (c10_modtime_conversion_aborts ⟨none⟩ dbEx ['/', 'a'] []).2.1 (Or.inl rfl)
  have hneg := (c10_modtime_conversion_aborts ⟨some (-1)⟩ dbEx ['/', 'a'] []).2.1
    (Or.inr ⟨-1, rfl, by decide⟩)
  have hsave := (c10_modtime_conversion_aborts ⟨some (-1)⟩ dbEx ['/', 'a']
    [⟨['/', 'a'], ⟨some (-1)⟩, "z"⟩]).2.2
  refine ⟨by decide, hbad.2, hneg.2, ?_⟩
  rcases hs : save_results dbEx [⟨['/', 'a'], ⟨some (-1)⟩, "z"⟩] with _ | v
  · rfl
  · exfalso
    have : ∀ r ∈ [(⟨['/', 'a'], ⟨some (-1)⟩, "z"⟩ : OcrRes)],
        (metadata_to_seconds r.metadata).isSome := by
      rw [← hsave]
      simp [hs]
    have := this ⟨['/', 'a'], ⟨some (-1)⟩, "z"⟩ (by simp)
    simp [metadata_to_seconds] at this

/-! ## C2: mark-and-sweep cleanup -/

/-- `unmark_file` applied once per still-present path, as the pipeline
does during a cleanup scan. -/
def unmarkAll (st : DBState) (ps : List (List Char)) : DBState :=
  ps.foldl unmark_file st

/-- A stored row has vanished from the scan of `dir` when its path
lies under `dir` but is not among the still-present paths. -/
def vanished (dir : List Char) (ps : List (List Char)) (r : Row) : Bool :=
  startsWith dir r.path && !(decide (r.path ∈ ps))

theorem updateWhere_images (st : DBState) (cond : Row → Bool) (f : Row → Row) :
    (updateWhere st cond f).images = st.images.map (fun r => if cond r then f r else r) := rfl

theorem mark_for_deletion_images (st : DBState) (dir : List Char) :
    ∀ s1, mark_for_deletion true st dir = some s1 →
      s1.images = st.images.map (fun r => { r with mark_delete := startsWith dir r.path }) := by
  intro s1 h
  simp only [mark_for_deletion, if_pos, Option.some.injEq] at h
  subst h
  rw [updateWhere_images, updateWhere_images, List.map_map]
  apply List.map_congr_left
  intro r _
  have hinner : (if r.mark_delete = true then { r with mark_delete := false } else r)
      = { r with mark_delete := false } := by
    by_cases hm : r.mark_delete
    · simp [hm]
    · simp only [hm]
      cases r
      simp_all
  simp only [Function.comp_apply, hinner]
  by_cases hl : startsWith dir r.path
  · simp [likeMatch_path_to_like, hl]
  · simp [likeMatch_path_to_like, hl]

theorem unmark_file_images (st : DBState) (p : List Char) :
    (unmark_file st p).images
      = st.images.map (fun r => if r.path = p then { r with mark_delete := false } else r) := by
  rw [unmark_file, updateWhere_images]
  apply List.map_congr_left
  intro r _
  by_cases hp : r.path = p <;> simp [hp]

theorem unmarkAll_images (ps : List (List Char)) :
    ∀ st : DBState, (unmarkAll st ps).images
      = st.images.map (fun r => { r with mark_delete := r.mark_delete && !(decide (r.path ∈ ps)) }) := by
  induction ps with
  | nil =>
    intro st
    simp only [unmarkAll, List.foldl_nil]
    conv_lhs => rw [← List.map_id st.images]
    apply List.map_congr_left
    intro r _
    simp
  | cons p ps ih =>
    intro st
    have : unmarkAll st (p :: ps) = unmarkAll (unmark_file st p) ps := rfl
    rw [this, ih, unmark_file_images, List.map_map]
    apply List.map_congr_left
    intro r _
    by_cases hp : r.path = p
    · simp [Function.comp_apply, hp]
    · simp [Function.comp_apply, hp]

theorem sweep_deletions_images (st : DBState) :
    (sweep_deletions st).1.images = st.images.filter (fun r => !r.mark_delete) ∧
    (sweep_deletions st).2 = (st.images.filter (fun r => r.mark_delete)).length := ⟨rfl, rfl⟩

/-- C2 -- after `mark_for_deletion dir` (which demands a directory,
clears every old mark and marks exactly the rows whose path starts
with `dir`) and `unmark_file p` for each still-present path `p`,
`sweep_deletions` deletes exactly the vanished rows under `dir` and
returns their count; every other row survives (with its mark clear)
and rows outside `dir` are never deleted. -/
theorem c2_mark_sweep_correct (st : DBState) (dir : List Char) (ps : List (List Char))
    (s1 : DBState) (h : mark_for_deletion true st dir = some s1) :
    s1.images = st.images.map (fun r => { r with mark_delete := startsWith dir r.path }) ∧
    (sweep_deletions (unmarkAll s1 ps)).1.images
      = (st.images.filter (fun r => !vanished dir ps r)).map
          (fun r => { r with mark_delete := false }) ∧
    (sweep_deletions (unmarkAll s1 ps)).2
      = (st.images.filter (vanished dir ps)).length ∧
    mark_for_deletion false st dir = none := by
  have h1 := mark_for_deletion_images st dir s1 h
  refine ⟨h1, ?_, ?_, rfl⟩
  · rw [(sweep_deletions_images _).1, unmarkAll_images, h1, List.map_map,
      List.filter_map]
    have hcond : ∀ r ∈ st.images,
        ((fun r => !r.mark_delete) ∘
          (fun r => { r with mark_delete := r.mark_delete && !(decide (r.path ∈ ps)) }) ∘
          (fun r => { r with mark_delete := startsWith dir r.path })) r
          = !vanished dir ps r := by
      intro r _
      simp [Function.comp_apply, vanished]
    rw [List.filter_congr hcond]
    apply List.map_congr_left
    intro r hr
    have hv : vanished dir ps r = false := by
      have := List.of_mem_filter hr
      simpa using this
    have : (startsWith dir r.path && !(decide (r.path ∈ ps))) = false := hv
    simp [Function.comp_apply, this]
  · rw [(sweep_deletions_images _).2, unmarkAll_images, h1, List.map_map,
      List.filter_map, List.length_map]
    congr 1

theorem c2_mark_sweep_correct_witness :
    ∃ s1, mark_for_deletion true dbEx ['/', 'a'] = some s1 ∧
      (sweep_deletions (unmarkAll s1 [])).2 = 1 ∧
      (sweep_deletions (unmarkAll s1 [])).1.images
        = [{ id := 2, path := ['/', 'b'], modtime := 7, mark_delete := false, content := "y" }] := by
  rcases hmk : mark_for_deletion true dbEx ['/', 'a'] with _ | s1
  · exact absurd hmk (by decide)
  · have h := c2_mark_sweep_correct dbEx ['/', 'a'] [] s1 hmk
    exact ⟨s1, rfl, by rw [h.2.2.1]; decide, by rw [h.2.1]; decide⟩

/-! ## C7: schema version dispatch (src/db.rs `DB::new` / `init_db`) -/

/-- What `DB::new` does after reading `pragma user_version`. -/
inductive OpenAction where
  | runMigration
  | failPrerelease
  | continueNormal
  | failTooNew
deriving DecidableEq, Repr

/-- The `match user_version` in `DB::new`: 0 migrates, 1 panics as a
prerelease database, 2 proceeds, anything else panics as too high. -/
def dbNewDispatch (v : Int) : OpenAction :=
  if v = 0 then .runMigration
  else if v = 1 then .failPrerelease
  else if v = 2 then .continueNormal
  else .failTooNew

/-- The statements of the `init_db` migration script, in order. -/
inductive MigStmt where
  | beginTx
  | commitTx
  | createImages
  | createMarkDeleteIdx
  | createImagesFts
  | trgImagesInsert
  | trgImagesDelete
  | trgImagesUpdate
  | setUserVersion (v : Int)
deriving DecidableEq, Repr

/-- The `execute_batch` script of `init_db`, statement by statement. -/
def initScript : List MigStmt :=
  [.beginTx, .createImages, .createMarkDeleteIdx, .createImagesFts,
   .trgImagesInsert, .trgImagesDelete, .trgImagesUpdate, .setUserVersion 2, .commitTx]

/-- A script runs in one transaction when it opens with `BEGIN`,
closes with `COMMIT`, and has no other transaction statement. -/
def oneTransaction (s : List MigStmt) : Bool :=
  s.head? == some .beginTx && s.getLast? == some .commitTx &&
    (s.drop 1).dropLast.all (fun st => st != .beginTx && st != .commitTx)

/-- The schema version a script leaves behind. -/
def scriptSetsVersion (s : List MigStmt) : Option Int :=
  (s.filterMap (fun st => match st with | .setUserVersion v => some v | _ => none)).getLast?

/-- C7 -- opening a store dispatches on the persisted schema version:
0 runs the migration script (all of it inside one transaction) which
sets the version to 2; 1 refuses to open; 2 continues; every version
greater than 2 refuses to open. -/
theorem c7_schema_dispatch (v : Int) (hv : 2 < v) :
    dbNewDispatch 0 = .runMigration ∧
    oneTransaction initScript = true ∧
    scriptSetsVersion initScript = some 2 ∧
    dbNewDispatch 1 = .failPrerelease ∧
    dbNewDispatch 2 = .continueNormal ∧
    dbNewDispatch v = .failTooNew := by
  refine ⟨rfl, by decide, by decide, rfl, rfl, ?_⟩
  have h0 : v ≠ 0 := by omega
  have h1 : v ≠ 1 := by omega
  have h2 : v ≠ 2 := by omega
  simp [dbNewDispatch, h0, h1, h2]

theorem c7_schema_dispatch_witness :
    (2 : Int) < 3 ∧ dbNewDispatch 3 = .failTooNew :=
  ⟨by decide, (c7_schema_dispatch 3 (by decide)).2.2.2.2.2⟩

/-! ## C3: the OCR adapter's page segmentation mode (src/ocr.rs `Ocr::new`) -/

/-- The leptonica thresholding selector of src/ocr.rs. -/
inductive Binarization where
  | otsu
  | leptonicaOtsu
  | sauvola
deriving DecidableEq, Repr

/-- `Binarization as u8` in `Ocr::new`. -/
def binarizationCode : Binarization → Nat
  | .otsu => 0
  | .leptonicaOtsu => 1
  | .sauvola => 2

/-- The engine configuration `Ocr::new` manipulates through
`set_variable` / `set_page_seg_mode`. -/
structure Engine where
  debugFileNull : Bool
  logSeverityError : Bool
  thresholdingMethod : Option Nat
  pagesegMode : Int
  charBlacklist : String
deriving DecidableEq, Repr

/-- Engine state as `TessApi::new` hands it over, before `Ocr::new`
applies any configuration; `initPsm` is the engine's own default. -/
def initEngine (initPsm : Int) : Engine :=
  { debugFileNull := false, logSeverityError := false, thresholdingMethod := none,
    pagesegMode := initPsm, charBlacklist := "" }

/-- Outcome of `Ocr::new`. -/
inductive OcrNewResult where
  | invalidLanguage
  | panicPsmConvert
  | ok (e : Engine)
deriving DecidableEq, Repr

/-- `lang.len() == 3 && !lang.contains(['.', '/', '\\']) && lang.is_ascii()`. -/
def validLang (lang : List Char) : Bool :=
  lang.length == 3 &&
    !(lang.any (fun c => c = '.' || c = '/' || c = '\\')) &&
    lang.all (fun c => c.toNat < 128)

/-- `Ocr::new` from src/ocr.rs, step by step: validate the language,
optionally silence debug output, optionally pick a thresholding
method, apply the caller's `psm` via `set_page_seg_mode` (whose
`try_into` panics on a negative value), then unconditionally set
`tessedit_pageseg_mode` to `"11"` and install the character
blacklist. -/
def ocr_new (lang : List Char) (debug : Bool) (binarization : Option Binarization)
    (psm : Option Int) (e0 : Engine) : OcrNewResult :=
  if !validLang lang then .invalidLanguage
  else
    let e1 := if !debug then { e0 with debugFileNull := true, logSeverityError := true } else e0
    let e2 := match binarization with
      | some b => { e1 with thresholdingMethod := some (binarizationCode b) }
      | none => e1
    match psm with
    | some p =>
      if p < 0 then .panicPsmConvert
      else
        let e3 := { e2 with pagesegMode := p }
        let e4 := { e3 with pagesegMode := 11 }
        .ok { e4 with charBlacklist := "|®»«®©" }
    | none =>
      let e4 := { e2 with pagesegMode := 11 }
      .ok { e4 with charBlacklist := "|®»«®©" }

/-- C3 -- the code contradicts the claim: whatever `psm` the caller
supplies, `Ocr::new` afterwards writes `tessedit_pageseg_mode = "11"`,
so the effective page segmentation mode is always 11; evaluated at the
failing input `psm = 3` the adapter ends up in mode 11, not 3. -/
theorem c3_psm_override_bug :
    ocr_new ['e', 'n', 'g'] false none (some 3) (initEngine 6)
      = .ok { debugFileNull := true, logSeverityError := true, thresholdingMethod := none,
              pagesegMode := 11, charBlacklist := "|®»«®©" } ∧
    (∀ (p : Nat) (e0 : Engine),
       ocr_new ['e', 'n', 'g'] false none (some (p : Int)) e0
         = .ok { e0 with debugFileNull := true, logSeverityError := true,
                         pagesegMode := 11, charBlacklist := "|®»«®©" }) ∧
    ((11 : Int) ≠ 3) := by
  refine ⟨by decide, ?_, by decide⟩
  intro p e0
  have hlang : validLang ['e', 'n', 'g'] = true := by decide
  have hneg : ¬((p : Int) < 0) := by
    simp [Int.not_lt]
  simp [ocr_new, hlang, hneg]

/-! ## C5: walker extension filter (src/index.rs `index_dir`) -/

/-- `indexed_filetypes` from src/index.rs. -/
def indexed_filetypes : List (List Char) :=
  [['p', 'n', 'g'], ['j', 'p', 'e', 'g'], ['j', 'p', 'g'], ['g', 'i', 'f'], ['w', 'e', 'b', 'p']]

/-- The walker's per-entry decision: entries matching an exclude
pattern are pruned by `filter_entry`, directories are skipped, and a
file survives iff its extension (as returned by `Path::extension`,
case preserved) is contained in `indexed_filetypes`. -/
def walkerAccepts (excluded isDirEntry : Bool) (ext : Option (List Char)) : Bool :=
  if excluded then false
  else if isDirEntry then false
  else
    match ext with
    | some e => indexed_filetypes.contains e
    | none => false

/-- The claim's predicate: the same filter but with the extension
taken lower-case before the comparison. -/
def walkerAcceptsSpec (excluded isDirEntry : Bool) (ext : Option (List Char)) : Bool :=
  if excluded then false
  else if isDirEntry then false
  else
    match ext with
    | some e => indexed_filetypes.contains (e.map Char.toLower)
    | none => false

/-- C5 counterexample -- a file with extension `PNG` is rejected by
the code although the claimed case-insensitive filter accepts it. -/
theorem c5_walker_case_cex :
    walkerAccepts false false (some ['P', 'N', 'G']) = false ∧
    walkerAcceptsSpec false false (some ['P', 'N', 'G']) = true ∧
    walkerAccepts false false (some ['P', 'N', 'G'])
      ≠ walkerAcceptsSpec false false (some ['P', 'N', 'G']) := by
  refine ⟨by decide, ?_, ?_⟩ <;> decide

/-- C5 amended -- the walker accepts exactly the non-excluded
non-directory entries whose extension is, case-sensitively, one of
`png`, `jpeg`, `jpg`, `gif`, `webp`; every accepted extension is
already lower-case, and an upper-case variant such as `PNG` is
rejected. -/
theorem c5_walker_extension_amended :
    (∀ (excluded isDirEntry : Bool) (ext : Option (List Char)),
       walkerAccepts excluded isDirEntry ext = true ↔
         (excluded = false ∧ isDirEntry = false ∧
           ∃ e, ext = some e ∧ e ∈ indexed_filetypes)) ∧
    indexed_filetypes.all (fun e => e.map Char.toLower == e) = true ∧
    walkerAccepts false false (some ['P', 'N', 'G']) = false := by
  refine ⟨?_, by decide, by decide⟩
  intro excluded isDirEntry ext
  cases excluded with
  | true => simp [walkerAccepts]
  | false =>
    cases isDirEntry with
    | true => simp [walkerAccepts]
    | false =>
      cases ext with
      | none => simp [walkerAccepts]
      | some e =>
        simp [walkerAccepts, List.elem_iff]

/-! ## C8: blank-line collapsing in `Ocr::scan` (src/ocr.rs line 91) -/

/-- The post-processing applied to the recognised text:
Rust's `replace("\n\n", "\n")`, a single left-to-right pass replacing
each non-overlapping occurrence of two newlines by one. -/
def collapseNN : List Char → List Char
  | [] => []
  | [c] => [c]
  | c :: d :: rest =>
    if c = '\n' ∧ d = '\n' then '\n' :: collapseNN rest
    else c :: collapseNN (d :: rest)

/-- Does the text contain three consecutive newlines (that is, a run
of two consecutive blank lines)? -/
def hasTripleNewline : List Char → Bool
  | '\n' :: '\n' :: '\n' :: _ => true
  | _ :: rest => hasTripleNewline rest
  | [] => false

/-- C8 counterexample -- on a text with a run of eight newlines the
single `replace` pass leaves four consecutive newlines, so the
returned string still contains runs of two or more consecutive blank
lines. -/
theorem c8_blank_collapse_cex :
    collapseNN ['a', '\n', '\n', '\n', '\n', '\n', '\n', '\n', '\n', 'b']
      = ['a', '\n', '\n', '\n', '\n', 'b'] ∧
    hasTripleNewline
      (collapseNN ['a', '\n', '\n', '\n', '\n', '\n', '\n', '\n', '\n', 'b']) = true := by
  refine ⟨by decide, by decide⟩

/-- C8 amended -- `scan` returns the recognised text with each
leftmost non-overlapping occurrence of `"\n\n"` replaced by `"\n"`:
a run of `n` newlines (followed by a non-newline) becomes
`⌈n / 2⌉` newlines, so consecutive blank lines can survive the pass. -/
theorem c8_scan_collapse_amended (n : Nat) (rest : List Char)
    (h : rest.head? ≠ some '\n') :
    collapseNN (List.replicate n '\n' ++ rest)
      = List.replicate ((n + 1) / 2) '\n' ++ collapseNN rest := by
  induction n using Nat.strong_induction_on with
  | _ n ih =>
    match n with
    | 0 => simp
    | 1 =>
      simp only [List.replicate_one, List.cons_append, List.nil_append]
      cases rest with
      | nil => simp [collapseNN]
      | cons e rs =>
        have he : e ≠ '\n' := by
          intro hh
          subst hh
          simp at h
        simp [collapseNN, he]
    | (k + 2) =>
      have hrep : List.replicate (k + 2) '\n' ++ rest
          = '\n' :: '\n' :: (List.replicate k '\n' ++ rest) := by
        simp [List.replicate_succ]
      rw [hrep]
      have hcount : (k + 2 + 1) / 2 = (k + 1) / 2 + 1 := by omega
      rw [hcount]
      have : collapseNN ('\n' :: '\n' :: (List.replicate k '\n' ++ rest))
          = '\n' :: collapseNN (List.replicate k '\n' ++ rest) := by
        simp [collapseNN]
      rw [this, ih k (by omega)]
      simp [List.replicate_succ]

theorem c8_scan_collapse_amended_witness :
    collapseNN (List.replicate 5 '\n' ++ ['b'])
      = List.replicate 3 '\n' ++ collapseNN ['b'] := by
  exact c8_scan_collapse_amended 5 ['b'] (by decide)

/-! ## C4: chunk filtering order (src/index.rs lines 104-145) -/

/-- What happens to one chunk entry in the skip `filter_map`
(observable effects: kept, image header opened, `unmark_file` called,
progress bar advanced). -/
structure StepRes where
  kept : Bool
  opened : Bool
  unmarkCalled : Bool
  barAdvanced : Bool
deriving DecidableEq, Repr

/-- The result of probing the image header for its dimensions:
the OS-level open can fail (the code's `expect` panics),
`with_guessed_format` or `into_dimensions` can fail, or the
dimensions are read. -/
inductive DimProbe where
  | openPanic
  | formatFail
  | dimsFail
  | dims (w h : Nat)
deriving DecidableEq, Repr

/-- The tail of the filter closure: `if options.rescan { keep }`,
then `if db.is_indexed { unmark_file; bar.update(1); drop }`, else
keep. -/
def afterDimCheck (rescan indexed opened : Bool) : StepRes :=
  if rescan then ⟨true, opened, false, false⟩
  else if indexed then ⟨false, opened, true, true⟩
  else ⟨true, opened, false, false⟩

/-- The filter closure of `index_dir` as written: when
`max_dimensions` is set the image header is opened FIRST and the
entry dropped on failure or oversize, and only afterwards are
`rescan`/`is_indexed` consulted.  `none` models the `expect` panic on
an unopenable file. -/
def pipelineFilterStep (rescan : Bool) (maxDim : Option (Nat × Nat)) (probe : DimProbe)
    (indexed : Bool) : Option StepRes :=
  match maxDim with
  | some (mw, mh) =>
    (match probe with
     | .openPanic => none
     | .formatFail => some ⟨false, true, false, false⟩
     | .dimsFail => some ⟨false, true, false, false⟩
     | .dims w h =>
       if w > mw || h > mh then some ⟨false, true, false, false⟩
       else some (afterDimCheck rescan indexed true))
  | none => some (afterDimCheck rescan indexed false)

/-- The order the claim describes: the `is_indexed` check comes
first, so an already-indexed entry is unmarked, counted and dropped
without ever opening the image. -/
def pipelineFilterStepClaim (rescan : Bool) (maxDim : Option (Nat × Nat)) (probe : DimProbe)
    (indexed : Bool) : Option StepRes :=
  if !rescan && indexed then some ⟨false, false, true, true⟩
  else
    match maxDim with
    | some (mw, mh) =>
      (match probe with
       | .openPanic => none
       | .formatFail => some ⟨false, true, false, false⟩
       | .dimsFail => some ⟨false, true, false, false⟩
       | .dims w h =>
         if w > mw || h > mh then some ⟨false, true, false, false⟩
         else some ⟨true, true, false, false⟩)
    | none => some ⟨true, false, false, false⟩

/-- C4 counterexample -- an already-indexed oversized entry (rescan
off, `max_dimensions = (10, 10)`, actual dimensions 100×100): the
code opens the image and drops the entry without calling
`unmark_file` or advancing the bar, while the claimed order would
unmark it, advance the bar and never open it. -/
theorem c4_skip_order_cex :
    pipelineFilterStep false (some (10, 10)) (.dims 100 100) true
      = some ⟨false, true, false, false⟩ ∧
    pipelineFilterStepClaim false (some (10, 10)) (.dims 100 100) true
      = some ⟨false, false, true, true⟩ ∧
    pipelineFilterStep false (some (10, 10)) (.dims 100 100) true
      ≠ pipelineFilterStepClaim false (some (10, 10)) (.dims 100 100) true := by
  refine ⟨by decide, by decide, by decide⟩

/-- C4 amended -- the two checks run in the opposite order: when
`max_dimensions` is set the image header is opened first (even for an
already-indexed entry) and the entry is dropped on a format/decode
failure or oversize; only entries passing that check reach the
`rescan`/`is_indexed` logic, which unmarks, advances the bar and
drops exactly the already-indexed entries when `rescan` is off. -/
theorem c4_skip_order_amended :
    (∀ (rescan indexed : Bool) (probe : DimProbe),
       pipelineFilterStep rescan none probe indexed = some (afterDimCheck rescan indexed false)) ∧
    (∀ (rescan indexed : Bool) (mw mh w h : Nat), w ≤ mw → h ≤ mh →
       pipelineFilterStep rescan (some (mw, mh)) (.dims w h) indexed
         = some (afterDimCheck rescan indexed true)) ∧
    (∀ (rescan indexed : Bool) (mw mh w h : Nat), mw < w ∨ mh < h →
       pipelineFilterStep rescan (some (mw, mh)) (.dims w h) indexed
         = some ⟨false, true, false, false⟩) ∧
    (∀ (rescan indexed : Bool) (mw mh : Nat),
       pipelineFilterStep rescan (some (mw, mh)) .formatFail indexed
           = some ⟨false, true, false, false⟩ ∧
       pipelineFilterStep rescan (some (mw, mh)) .dimsFail indexed
           = some ⟨false, true, false, false⟩) ∧
    (∀ opened : Bool, afterDimCheck false true opened = ⟨false, opened, true, true⟩) ∧
    (∀ (indexed opened : Bool), afterDimCheck true indexed opened = ⟨true, opened, false, false⟩) ∧
    (∀ opened : Bool, afterDimCheck false false opened = ⟨true, opened, false, false⟩) := by
  refine ⟨fun _ _ _ => rfl, ?_, ?_, fun _ _ _ _ => ⟨rfl, rfl⟩, fun _ => rfl, fun _ _ => rfl,
    fun _ => rfl⟩
  · intro rescan indexed mw mh w h hw hh
    simp [pipelineFilterStep, Nat.not_lt.2 hw, Nat.not_lt.2 hh]
  · intro rescan indexed mw mh w h hlt
    rcases hlt with hlt | hlt
    · simp [pipelineFilterStep, hlt]
    · simp [pipelineFilterStep, hlt]

theorem c4_skip_order_amended_witness :
    pipelineFilterStep false (some (10, 10)) (.dims 5 5) true
      = some (afterDimCheck false true true) ∧
    pipelineFilterStep false (some (10, 10)) (.dims 100 100) true
      = some ⟨false, true, false, false⟩ := by
  exact ⟨c4_skip_order_amended.2.1 false true 10 10 5 5 (by decide) (by decide),
    c4_skip_order_amended.2.2.1 false true 10 10 100 100 (Or.inl (by decide))⟩

/-! ## C9: the FTS synchronisation invariant -/

theorem map_if_perm {α β : Type} (l : List α) (cond : α → Bool) (u v : α → β) :
    (l.map (fun r => if cond r then u r else v r)).Perm
      ((l.filter (fun r => !cond r)).map v ++ (l.filter cond).map u) := by
  induction l with
  | nil => simp
  | cons r l ih =>
    by_cases h : cond r
    · have h1 : (r :: l).filter (fun r => !cond r) = l.filter (fun r => !cond r) := by
        simp [List.filter_cons, h]
      have h2 : (r :: l).filter cond = r :: l.filter cond := by
        simp [List.filter_cons, h]
      rw [h1, h2]
      simp only [List.map_cons, if_pos h]
      exact (ih.cons (u r)).trans List.perm_middle.symm
    · have h1 : (r :: l).filter (fun r => !cond r) = r :: l.filter (fun r => !cond r) := by
        simp [List.filter_cons, h]
      have h2 : (r :: l).filter cond = l.filter cond := by
        simp [List.filter_cons, h]
      rw [h1, h2]
      simp only [List.map_cons, if_neg h, List.cons_append]
      exact ih.cons (v r)

theorem foldl_touchRow_eq (D : List Row) :
    ∀ fts : List (Nat × String), (D.map Row.id).Nodup →
      D.foldl touchRow fts
        = fts.filter (fun e => !(decide (e.1 ∈ D.map Row.id))) ++ ftsOf D := by
  induction D with
  | nil =>
    intro fts _
    simp [ftsOf]
  | cons d D ih =>
    intro fts hD
    rw [List.map_cons, List.nodup_cons] at hD
    obtain ⟨hd, hD'⟩ := hD
    simp only [List.foldl_cons]
    rw [ih (touchRow fts d) hD']
    have htouch : touchRow fts d
        = fts.filter (fun e => decide (e.1 ≠ d.id)) ++ [(d.id, d.content)] := rfl
    rw [htouch, List.filter_append, List.filter_filter]
    have hsngl : [((d.id : Nat), d.content)].filter
        (fun e => !(decide (e.1 ∈ D.map Row.id))) = [(d.id, d.content)] := by
      simp only [List.filter_cons, List.filter_nil]
      rw [if_pos]
      simp only [Bool.not_eq_true', decide_eq_false_iff_not]
      exact hd
    rw [hsngl]
    have hpred : ∀ e ∈ fts,
        (!(decide (e.1 ∈ D.map Row.id)) && decide (e.1 ≠ d.id))
          = !(decide (e.1 ∈ (d :: D).map Row.id)) := by
      intro e _
      by_cases h1 : e.1 = d.id
      · simp [h1]
      · by_cases h2 : e.1 ∈ D.map Row.id <;> simp [h1, h2]
    rw [List.filter_congr hpred, List.append_assoc, List.singleton_append]
    rfl

theorem ids_updateWhere (st : DBState) (cond : Row → Bool) (f : Row → Row)
    (hid : ∀ r, (f r).id = r.id) :
    (updateWhere st cond f).images.map Row.id = st.images.map Row.id := by
  rw [updateWhere_images, List.map_map]
  apply List.map_congr_left
  intro r _
  by_cases h : cond r <;> simp [h, hid]

theorem paths_updateWhere (st : DBState) (cond : Row → Bool) (f : Row → Row)
    (hpath : ∀ r, (f r).path = r.path) :
    (updateWhere st cond f).images.map Row.path = st.images.map Row.path := by
  rw [updateWhere_images, List.map_map]
  apply List.map_congr_left
  intro r _
  by_cases h : cond r <;> simp [h, hpath]

theorem mem_ids_filter_iff (rows : List Row) (cond : Row → Bool)
    (hids : (rows.map Row.id).Nodup) (r : Row) (hr : r ∈ rows) :
    r.id ∈ (rows.filter cond).map Row.id ↔ cond r = true := by
  constructor
  · intro h
    obtain ⟨r', hr', hid⟩ := List.mem_map.mp h
    obtain ⟨hr'mem, hr'cond⟩ := List.mem_filter.mp hr'
    have : r' = r := List.inj_on_of_nodup_map hids hr'mem hr hid
    exact this ▸ hr'cond
  · intro h
    exact List.mem_map.mpr ⟨r, List.mem_filter.mpr ⟨hr, h⟩, rfl⟩

theorem updateWhere_preserves (st : DBState) (cond : Row → Bool) (f : Row → Row)
    (hid : ∀ r, (f r).id = r.id) (hpath : ∀ r, (f r).path = r.path)
    (hwf : WF st) (hinv : InvFts st) :
    WF (updateWhere st cond f) ∧ InvFts (updateWhere st cond f) := by
  constructor
  · constructor
    · rw [paths_updateWhere st cond f hpath]
      exact hwf.1
    · rw [ids_updateWhere st cond f hid]
      exact hwf.2
  · unfold InvFts
    have hfold : (updateWhere st cond f).fts
        = ((st.images.filter cond).map f).foldl touchRow st.fts := by
      rw [List.foldl_map]
      rfl
    have hidsD : ((st.images.filter cond).map f).map Row.id
        = (st.images.filter cond).map Row.id := by
      rw [List.map_map]
      exact List.map_congr_left (fun r _ => hid r)
    have hnodupD : (((st.images.filter cond).map f).map Row.id).Nodup := by
      rw [hidsD]
      exact ((List.filter_sublist st.images).map Row.id).nodup hwf.2
    rw [hfold, foldl_touchRow_eq _ _ hnodupD, hidsD]
    have hfilter : st.fts.filter
        (fun e => !(decide (e.1 ∈ (st.images.filter cond).map Row.id)))
        |>.Perm ((st.images.filter (fun r => !cond r)).map (fun r => (r.id, r.content))) := by
      refine (List.Perm.filter _ hinv).trans ?_
      unfold ftsOf
      rw [List.filter_map]
      have : st.images.filter
          ((fun e => !(decide (e.1 ∈ (st.images.filter cond).map Row.id))) ∘
            (fun r => (r.id, r.content)))
          = st.images.filter (fun r => !cond r) := by
        apply List.filter_congr
        intro r hr
        have := mem_ids_filter_iff st.images cond hwf.2 r hr
        by_cases h : cond r
        · simp [Function.comp_apply, this, h]
        · have : ¬r.id ∈ (st.images.filter cond).map Row.id := by
            rw [mem_ids_filter_iff st.images cond hwf.2 r hr]
            simp [h]
          simp [Function.comp_apply, this, h]
      rw [this]
    have htarget : (ftsOf (updateWhere st cond f).images).Perm
        (((st.images.filter (fun r => !cond r)).map (fun r => (r.id, r.content))) ++
          ftsOf ((st.images.filter cond).map f)) := by
      unfold ftsOf
      rw [updateWhere_images, List.map_map, List.map_map]
      have heq : ((fun r => ((r.id : Nat), r.content)) ∘ fun r => if cond r then f r else r)
          = fun r => if cond r then (fun r => ((f r).id, (f r).content)) r
                     else (fun r => (r.id, r.content)) r := by
        funext r
        simp only [Function.comp_apply]
        by_cases h : cond r <;> simp [h]
      rw [heq]
      exact map_if_perm st.images cond _ _
    exact (hfilter.append_right _).trans htarget.symm

theorem le_foldr_max (l : List Nat) : ∀ x ∈ l, x ≤ l.foldr max 0 := by
  induction l with
  | nil => simp
  | cons a l ih =>
    intro x hx
    rcases List.mem_cons.mp hx with rfl | hx
    · exact le_max_left _ _
    · exact le_trans (ih x hx) (le_max_right _ _)

theorem freshId_not_mem (rows : List Row) : freshId rows ∉ rows.map Row.id := by
  intro h
  have := le_foldr_max (rows.map Row.id) _ h
  unfold freshId at this
  omega

theorem filter_path_eq_singleton (rows : List Row) (p : List Char) (old : Row)
    (hpaths : (rows.map Row.path).Nodup)
    (hfind : rows.find? (fun r => decide (r.path = p)) = some old) :
    rows.filter (fun r => decide (r.path = p)) = [old] := by
  induction rows with
  | nil => simp at hfind
  | cons r rs ih =>
    rw [List.map_cons, List.nodup_cons] at hpaths
    obtain ⟨hrp, hpaths'⟩ := hpaths
    by_cases h : r.path = p
    · have hfr : (r :: rs).find? (fun r => decide (r.path = p)) = some r := by
        simp [List.find?_cons, h]
      rw [hfr] at hfind
      obtain rfl := Option.some.injEq .. ▸ hfind
      have hnil : rs.filter (fun r => decide (r.path = p)) = [] := by
        rw [List.filter_eq_nil_iff]
        intro x hx hxp
        apply hrp
        have hxpath : x.path = p := by simpa using hxp
        rw [h, ← hxpath]
        exact List.mem_map_of_mem _ hx
      simp [List.filter_cons, h, hnil]
    · have hfr : (r :: rs).find? (fun r => decide (r.path = p))
          = rs.find? (fun r => decide (r.path = p)) := by
        simp [List.find?_cons, h]
      rw [hfr] at hfind
      rw [List.filter_cons]
      simp only [decide_eq_true_eq, h, if_false]
      exact ih hpaths' hfind

theorem upsertRow_preserves (st : DBState) (p : List Char) (mt : Nat) (c : String)
    (hwf : WF st) (hinv : InvFts st) :
    WF (upsertRow st p mt c) ∧ InvFts (upsertRow st p mt c) := by
  rcases hfind : findRow st.images p with _ | old
  · have himg : (upsertRow st p mt c).images
        = st.images ++ [{ id := freshId st.images, path := p, modtime := mt,
                          mark_delete := false, content := c }] := by
      unfold upsertRow
      rw [hfind]
    have hfts : (upsertRow st p mt c).fts = st.fts ++ [(freshId st.images, c)] := by
      unfold upsertRow
      rw [hfind]
    constructor
    · constructor
      · rw [himg, List.map_append, List.nodup_append]
        refine ⟨hwf.1, List.nodup_singleton _, ?_⟩
        intro x hx hx'
        simp only [List.map_cons, List.map_nil, List.mem_singleton] at hx'
        subst hx'
        unfold findRow at hfind
        rw [List.find?_eq_none] at hfind
        obtain ⟨r, hr, hrp⟩ := List.mem_map.mp hx
        exact hfind r hr (by simpa using hrp)
      · rw [himg, List.map_append, List.nodup_append]
        refine ⟨hwf.2, List.nodup_singleton _, ?_⟩
        intro x hx hx'
        simp only [List.map_cons, List.map_nil, List.mem_singleton] at hx'
        subst hx'
        exact freshId_not_mem st.images hx
    · unfold InvFts
      rw [himg, hfts]
      unfold ftsOf
      rw [List.map_append]
      exact hinv.append_right _
  · have heq : upsertRow st p mt c
        = updateWhere st (fun r => decide (r.path = p))
            (fun r => { r with modtime := mt, content := c }) := by
      unfold upsertRow updateWhere
      rw [hfind]
      have hfil := filter_path_eq_singleton st.images p old hwf.1 hfind
      rw [hfil]
      rfl
    rw [heq]
    exact updateWhere_preserves st _ _ (fun r => rfl) (fun r => rfl) hwf hinv

theorem foldl_ftsDelete_eq (D : List Row) :
    ∀ fts : List (Nat × String),
      D.foldl (fun a r => ftsDelete a r.id) fts
        = fts.filter (fun e => !(decide (e.1 ∈ D.map Row.id))) := by
  induction D with
  | nil =>
    intro fts
    simp
  | cons d D ih =>
    intro fts
    simp only [List.foldl_cons]
    rw [ih (ftsDelete fts d.id)]
    unfold ftsDelete
    rw [List.filter_filter]
    apply List.filter_congr
    intro e _
    by_cases h1 : e.1 = d.id
    · simp [h1]
    · by_cases h2 : e.1 ∈ D.map Row.id <;> simp [h1, h2]

theorem sweep_deletions_preserves (st : DBState) (hwf : WF st) (hinv : InvFts st) :
    WF (sweep_deletions st).1 ∧ InvFts (sweep_deletions st).1 := by
  constructor
  · constructor
    · exact ((List.filter_sublist st.images).map Row.path).nodup hwf.1
    · exact ((List.filter_sublist st.images).map Row.id).nodup hwf.2
  · unfold InvFts
    have hfts : (sweep_deletions st).1.fts
        = st.fts.filter
            (fun e => !(decide (e.1 ∈ (st.images.filter (fun r => r.mark_delete)).map Row.id))) :=
      foldl_ftsDelete_eq _ st.fts
    have himg : (sweep_deletions st).1.images
        = st.images.filter (fun r => !r.mark_delete) := rfl
    rw [hfts, himg]
    refine (List.Perm.filter _ hinv).trans ?_
    unfold ftsOf
    rw [List.filter_map]
    have : st.images.filter
        ((fun e => !(decide (e.1 ∈ (st.images.filter (fun r => r.mark_delete)).map Row.id))) ∘
          (fun r => (r.id, r.content)))
        = st.images.filter (fun r => !r.mark_delete) := by
      apply List.filter_congr
      intro r hr
      have hiff := mem_ids_filter_iff st.images (fun r => r.mark_delete) hwf.2 r hr
      by_cases h : r.mark_delete
      · have : r.id ∈ (st.images.filter (fun r => r.mark_delete)).map Row.id := hiff.mpr h
        simp [Function.comp_apply, this, h]
      · have : ¬r.id ∈ (st.images.filter (fun r => r.mark_delete)).map Row.id := by
          rw [hiff]
          simp [h]
        simp [Function.comp_apply, this, h]
    rw [this]

theorem save_fold_preserves (res : List OcrRes) :
    ∀ (st : DBState) (n : Nat) (st' : DBState) (n' : Nat), WF st → InvFts st →
      res.foldl saveStep (some (st, n)) = some (st', n') → WF st' ∧ InvFts st' := by
  induction res with
  | nil =>
    intro st n st' n' hwf hinv h
    simp only [List.foldl_nil, Option.some.injEq, Prod.mk.injEq] at h
    obtain ⟨rfl, -⟩ := h
    exact ⟨hwf, hinv⟩
  | cons r rs ih =>
    intro st n st' n' hwf hinv h
    rcases hr : metadata_to_seconds r.metadata with _ | mt
    · rw [List.foldl_cons] at h
      have hstep : saveStep (some (st, n)) r = none := by
        simp [saveStep, hr]
      rw [hstep, foldl_saveStep_none] at h
      exact absurd h (by simp)
    · rw [List.foldl_cons] at h
      have hstep : saveStep (some (st, n)) r
          = some (upsertRow st r.path mt r.contents, n + 1) := by
        simp [saveStep, hr]
      rw [hstep] at h
      have hup := upsertRow_preserves st r.path mt r.contents hwf hinv
      exact ih _ _ _ _ hup.1 hup.2 h

/-- The claim's reading of the invariant: every row has exactly one
live FTS entry, with its id and its content, and every FTS entry
belongs to a live row (no orphans). -/
def FtsConsistent (st : DBState) : Prop :=
  (∀ r ∈ st.images,
     st.fts.countP (fun e => decide (e.1 = r.id)) = 1 ∧ (r.id, r.content) ∈ st.fts) ∧
  (∀ e ∈ st.fts, ∃ r ∈ st.images, r.id = e.1 ∧ r.content = e.2)

theorem invFts_consequence (st : DBState) (hids : (st.images.map Row.id).Nodup)
    (hinv : InvFts st) : FtsConsistent st := by
  constructor
  · intro r hr
    constructor
    · rw [hinv.countP_eq]
      unfold ftsOf
      rw [List.countP_map]
      have hcount : List.count r.id (st.images.map Row.id) = 1 :=
        List.count_eq_one_of_mem hids (List.mem_map_of_mem _ hr)
      rw [List.count_eq_countP, List.countP_map] at hcount
      rw [← hcount]
      apply List.countP_congr
      intro x _
      constructor
      · intro h
        simpa using h
      · intro h
        simpa using h
    · exact hinv.mem_iff.mpr (List.mem_map_of_mem _ hr)
  · intro e he
    have := hinv.mem_iff.mp he
    obtain ⟨r, hr, hre⟩ := List.mem_map.mp this
    exact ⟨r, hr, by rw [← hre], by rw [← hre]⟩

/-- C9 -- the triggers keep `images_fts` synchronised: starting from a
store satisfying the schema constraints and the FTS invariant, each of
`save_results`, `mark_for_deletion`, `unmark_file` and
`sweep_deletions` preserves them, and in every reachable state each
row has exactly one live FTS entry (same id, same content) while no
orphan entry survives a sweep. -/
theorem c9_fts_invariant (st : DBState) (hwf : WF st) (hinv : InvFts st) :
    (∀ res st' n, save_results st res = some (st', n) →
       (WF st' ∧ InvFts st') ∧ FtsConsistent st') ∧
    (∀ dir st', mark_for_deletion true st dir = some st' →
       (WF st' ∧ InvFts st') ∧ FtsConsistent st') ∧
    (∀ p, (WF (unmark_file st p) ∧ InvFts (unmark_file st p)) ∧
       FtsConsistent (unmark_file st p)) ∧
    ((WF (sweep_deletions st).1 ∧ InvFts (sweep_deletions st).1) ∧
       FtsConsistent (sweep_deletions st).1) := by
  refine ⟨?_, ?_, ?_, ?_⟩
  · intro res st' n h
    have := save_fold_preserves res st 0 st' n hwf hinv h
    exact ⟨this, invFts_consequence st' this.1.2 this.2⟩
  · intro dir st' h
    simp only [mark_for_deletion, if_pos, Option.some.injEq] at h
    subst h
    have h1 := updateWhere_preserves st (fun r => r.mark_delete)
      (fun r => { r with mark_delete := false }) (fun r => rfl) (fun r => rfl) hwf hinv
    have h2 := updateWhere_preserves _ (fun r => likeMatch (path_to_like dir) r.path)
      (fun r => { r with mark_delete := true }) (fun r => rfl) (fun r => rfl) h1.1 h1.2
    exact ⟨h2, invFts_consequence _ h2.1.2 h2.2⟩
  · intro p
    have h1 := updateWhere_preserves st (fun r => decide (r.path = p))
      (fun r => { r with mark_delete := false }) (fun r => rfl) (fun r => rfl) hwf hinv
    exact ⟨h1, invFts_consequence _ h1.1.2 h1.2⟩
  · have h1 := sweep_deletions_preserves st hwf hinv
    exact ⟨h1, invFts_consequence _ h1.1.2 h1.2⟩

theorem c9_fts_invariant_witness :
    WF dbEx ∧ InvFts dbEx ∧ FtsConsistent (unmark_file dbEx ['/', 'a']) := by
  refine ⟨by decide, by decide, ?_⟩
  exact ((c9_fts_invariant dbEx (by decide) (by decide)).2.2.1 ['/', 'a']).2

end Ocrlocate
